import Mathlib

/-!
Verification of the Creator meta build system (`creator` Python package)
against its natural-language specification.

This file gives a shallow embedding of the parts of the source that the
verified claims are about:

* `creator/utils.py` — the semicolon list codec (`split` / `join`),
  identifier validation, `parse_var` / `create_var`, Python `str.strip`;
* `creator/macro.py` — expression nodes (`TextNode`, `ConcatNode`,
  `VarNode`, `Function`), the parser (`Parser._parse_arg`,
  `Parser._parse_macro` over `Scanner`), node evaluation and
  substitution, `MutableContext.__setitem__`, the builtin function table
  (`Globals`, pure string functions);
* `creator/unit.py` — `UnitContext._prepare_name`, `WorkspaceContext`
  lookup, `Target.build`, `Target.export`, `Workspace.load_unit`;
* `creator/ninja.py` — `ident`.

Python strings are modelled as `List Char`.  Exceptions are modelled by
`Option`: `none` is a raised error (or exhausted fuel for the few loops
whose termination is data dependent; every concrete run in this file is
given enough fuel that exhaustion does not occur).  All recursions are
structural (mostly over an explicit fuel `Nat`), so every definition
evaluates inside the kernel.

Weak references: a Python `VarNode` keeps a weak reference to the context
it was parsed under and rebinds evaluation to that context.  In every
scenario verified here, evaluation happens under the very context state
the node was parsed under (parsing and evaluation are adjacent, with no
intervening mutation), so the rebinding is the identity and contexts are
passed by value.  The stored reference is kept as a tag (`CtxRef`)
carrying exactly the information `VarNode.substitute` observes: whether
the referent is alive and how its `get_namespace()` behaves.
-/

set_option maxRecDepth 8000

namespace Creator

/-- Python strings are lists of characters. -/
abbrev Str := List Char

/-- The whitespace characters of Python's `string.whitespace`
(` \t\n\r\x0b\x0c`), used by `Parser.CHARS_WHITESPACE` and modelling the
character class stripped by `str.strip()`. -/
def isWS (c : Char) : Bool :=
  c = ' ' || c = '\t' || c = '\n' || c = '\x0d' || c = Char.ofNat 11 || c = Char.ofNat 12

/-- Python `str.lstrip()`: drop leading whitespace. -/
def pyLStrip (s : Str) : Str := s.dropWhile isWS

/-- Python `str.rstrip()`: drop trailing whitespace. -/
def pyRStrip (s : Str) : Str := (s.reverse.dropWhile isWS).reverse

/-- Python `str.strip()`: drop leading and trailing whitespace. -/
def pyStrip (s : Str) : Str := pyRStrip (pyLStrip s)

/-- `item.replace(';', '\\;')` as used by `creator.utils.join`: escape
every semicolon with a backslash. -/
def escSemi : Str → Str
  | [] => []
  | c :: r => if c = ';' then '\\' :: ';' :: escSemi r else c :: escSemi r

/-- `item.replace('\\;', ';')` as used by `creator.utils.split`: Python
`str.replace` scans left to right replacing non-overlapping occurrences
of `\;` by `;`. -/
def replEsc : Str → Str
  | [] => []
  | [c] => [c]
  | c :: d :: r =>
    if c = '\\' ∧ d = ';' then ';' :: replEsc r
    else c :: replEsc (d :: r)

/-- Python `';'.join(parts)`: concatenate with a `;` between parts. -/
def joinParts : List Str → Str
  | [] => []
  | [x] => x
  | x :: rest => x ++ ';' :: joinParts rest

/-- `creator.utils.join(items)`:
`';'.join(item.replace(';', '\\;') for item in items if item)` —
drop empty items, escape semicolons, join with `;`. -/
def join (items : List Str) : Str :=
  joinParts ((items.filter (· ≠ [])).map escSemi)

/-- Index of the first occurrence of `sub` in `l` (Python `str.find`
restricted to found-at side; `none` models the `-1` result). -/
def firstMatch (sub : Str) : Str → Option Nat
  | [] => if sub.isPrefixOf ([] : Str) then some 0 else none
  | c :: r =>
    if sub.isPrefixOf (c :: r) then some 0
    else (firstMatch sub r).map (· + 1)

/-- Python `text.find(sub, start)` (with `none` for `-1`): the first
index `≥ start` where `sub` occurs in `text`. -/
def pyFind (text : Str) (sub : Str) (start : Nat) : Option Nat :=
  (firstMatch sub (text.drop start)).map (· + start)

/-- The inner `while` loop of `creator.utils.split`: starting from the
index of some `;` (or `none` for `-1`), as long as the candidate `;` at
index `j > 0` is preceded by a backslash
(`(j - 1) == text.find('\\;', j - 1)`), move to the next `;`
(`text.find(';', j + 1)`).  The loop advances the index on every
iteration, so `text.length + 1` fuel always suffices. -/
def skipEsc : Nat → Str → Option Nat → Option Nat
  | _, _, none => none
  | 0, _, some j => some j
  | fuel + 1, text, some j =>
    if 0 < j ∧ pyFind text ['\\', ';'] (j - 1) = some (j - 1) then
      skipEsc fuel text (pyFind text [';'] (j + 1))
    else
      some j

/-- One outer-loop step of `creator.utils.split` computes the index of
the first unescaped semicolon of `text` (`none` if there is none). -/
def findSep (text : Str) : Option Nat :=
  skipEsc (text.length + 1) text (pyFind text [';'] 0)

/-- The outer `while text:` loop of `creator.utils.split`.  Each
iteration emits the chunk before the first unescaped `;` (dropping it if
empty, unescaping `\\;` otherwise) and continues after that `;`; with no
unescaped `;` the remaining text is the last chunk.  Each iteration
removes at least one character, so `text.length + 1` fuel suffices. -/
def splitF : Nat → Str → List Str
  | 0, _ => []
  | fuel + 1, text =>
    if text = [] then []
    else
      match findSep text with
      | none => [replEsc text]
      | some idx =>
        let item := text.take idx
        let rest := text.drop (idx + 1)
        (if item = [] then [] else [replEsc item]) ++ splitF fuel rest

/-- `creator.utils.split(text)`: split a semicolon list into its items,
honouring `\\;` escapes and dropping empty items. -/
def split (text : Str) : List Str := splitF (text.length + 1) text

/-- `creator.utils.validate_identifier`: `re.match('^[A-Za-z0-9\\-\\._]+$', s)`. -/
def validateIdentifier (s : Str) : Bool :=
  s ≠ [] && s.all (fun c => c.isAlpha || c.isDigit || c = '-' || c = '.' || c = '_')

/-- Python `var.partition(':')`: `(before, found?, after)` at the first `:`. -/
def pyPartitionColon : Str → Str × Bool × Str
  | [] => ([], false, [])
  | c :: r =>
    if c = ':' then ([], true, r)
    else
      let (b, f, a) := pyPartitionColon r
      (c :: b, f, a)

/-- `creator.utils.parse_var(var)`: split an optionally namespaced name
into `(namespace?, varname)`; `none` namespace when there is no `:`,
empty-string namespace for an explicit `:` with empty left side (also
produced for a trailing-`:` form such as `u:`, where the partition gives
an empty varname and the two parts are swapped). -/
def parseVar (v : Str) : Option Str × Str :=
  let (ns, sep, varname) := pyPartitionColon v
  let (ns, varname) := if varname = [] then (varname, ns) else (ns, varname)
  if ¬sep then (none, varname) else (some ns, varname)

/-- `creator.utils.create_var(namespace, varname)`. -/
def createVar (ns : Option Str) (varname : Str) : Str :=
  match ns with
  | some n => n ++ ':' :: varname
  | none => varname

/-! ## Expression nodes (`creator/macro.py`) -/

/-- The pure builtin macro functions from `creator.macro.Globals` that
this embedding implements (the remaining builtins touch the filesystem,
the shell quoting rules of the host platform, or `os.path`, and are out
of scope; no verified claim mentions them). -/
inductive BFun where
  | addprefixF
  | addsuffixF
  | splitB
deriving DecidableEq, Repr

/-- The attribute name under which a builtin is found on
`creator.macro.Globals` (`func.__name__`). -/
def BFun.pyName : BFun → Str
  | .addprefixF => "addprefix".toList
  | .addsuffixF => "addsuffix".toList
  | .splitB => "split".toList

/-- The names of the modelled `Globals` builtins, used by
`WorkspaceContext.get_macro`'s `hasattr(creator.macro.Globals, name)`
fallback. -/
def globalsTable : List BFun := [.addprefixF, .addsuffixF, .splitB]

/-- Tag standing for a `VarNode`'s weak reference to the context it was
parsed under.  `dead` models a collected referent (`self.context()` is
`None`); `noNs` models a live context whose `get_namespace()` call
raises (the plain `MutableContext` — its `get_namespace(self, name)`
signature does not accept the zero-argument call `substitute` makes —
and `ChainContext` likewise); `named ns` models a live context whose
`get_namespace()` returns `ns` (`WorkspaceContext` returns `''`,
`UnitContext` returns the unit identifier). -/
inductive CtxRef where
  | dead
  | noNs
  | named (ns : Str)
deriving DecidableEq, Repr

/-- `creator.macro.ExpressionNode` and its concrete shapes:
`TextNode`, `ConcatNode`, `VarNode` (with its bound-context tag) and
`Function` (a wrapped builtin). -/
inductive Node where
  | text (s : Str)
  | concat (ns : List Node)
  | var (varname : Str) (args : List Node) (ctx : CtxRef)
  | fn (f : BFun)
deriving Repr

/-- `ConcatNode.append` with a string argument: coalesce into a trailing
`TextNode` when one is present, otherwise append a fresh `TextNode`. -/
def cnAppendText (ns : List Node) (t : Str) : List Node :=
  match ns.getLast? with
  | some (.text s) => ns.dropLast ++ [.text (s ++ t)]
  | _ => ns ++ [.text t]

/-- `ConcatNode.append` with a node argument: a `TextNode` goes through
the text-coalescing path, every other node is appended as is. -/
def cnAppendNode (ns : List Node) (n : Node) : List Node :=
  match n with
  | .text t => cnAppendText ns t
  | n => ns ++ [n]

/-! ## Parser (`creator.macro.Parser` over `nr.strex.Scanner`)

The scanner (the repository carries its implementation as
`creator.utils.Scanner`) is a cursor over an immutable string;
`char` reads the current character (`''`, modelled `none`, at EOF),
`next()` advances one position and returns the new current character,
`state()`/`restore()` save and restore the position, and
`consume_set(chars)` takes the maximal run of characters from the given
class, leaving the cursor after it (its `while` loop is `takeWhile` on
the remaining input).  Line/column bookkeeping plays no role in parsing
and is omitted; a scanner state is the input plus a position. -/

/-- Scanner state: the (immutable) content and the cursor position. -/
structure Scan where
  content : Str
  pos : Nat
deriving DecidableEq, Repr

/-- `scanner.char`: the current character, `none` (Python `''`) at EOF. -/
def Scan.char (s : Scan) : Option Char := s.content[s.pos]?

/-- The position change of `scanner.next()` (its return value is the new
current character, i.e. `(s.adv).char`). -/
def Scan.adv (s : Scan) : Scan := ⟨s.content, s.pos + 1⟩

/-- `scanner.consume_set(charset)`: consume the maximal run of
characters satisfying `p`, returning it with the new state. -/
def Scan.consumeSet (s : Scan) (p : Char → Bool) : Str × Scan :=
  let run := (s.content.drop s.pos).takeWhile p
  (run, ⟨s.content, s.pos + run.length⟩)

/-- `Parser.CHARS_IDENTIFIER`: `string.ascii_letters + string.digits + '_.<@:'`. -/
def isIdentChar (c : Char) : Bool :=
  c.isAlpha || c.isDigit || c = '_' || c = '.' || c = '<' || c = '@' || c = ':'

/-- The `while` loop inside `Parser._parse_macro`'s `is_call` branch:
parse comma-separated arguments until the closing parenthesis.
`parseOne` is `_parse_arg` with the closing set `"),"`, partially
applied (the mutual recursion is broken by passing it in; the caller
passes `parseArgF` at the strictly smaller fuel).  Each iteration
advances the scanner, so the caller's remaining fuel bounds it. -/
def parseCallArgs (parseOne : Scan → Node × Scan) :
    Nat → Scan → List Node → List Node × Scan
  | 0, s, args => (args, s)
  | fuel + 1, s, args =>
    match s.char with
    | none => (args, s)
    | some c =>
      if c = ')' then (args, s)
      else
        let (node, s1) := parseOne s
        let args := args ++ [node]
        match s1.char with
        | some ',' =>
          let s2 := s1.adv
          let (_, s3) := s2.consumeSet isWS
          parseCallArgs parseOne fuel s3 args
        | some ')' => (args, s1)
        | _ =>
          let (_, s3) := s1.consumeSet isWS
          parseCallArgs parseOne fuel s3 args

/-- `Parser._parse_macro`: called with the scanner just past the `$`.
Recognises `$(name args…)`, `${ name }` and `$name`; returns `none`
(and, per the source, a scanner either restored to the saved position or
simply left where identifier consumption stopped) when no macro can be
parsed.  `parseOne` is `_parse_arg` with closing set `"),"`. -/
def parseMacroF (parseOne : Scan → Node × Scan) (argFuel : Nat)
    (pctx : CtxRef) (s : Scan) : Option Node × Scan :=
  let cursor := s
  let (isCall, isBraced, s1) :=
    match s.char with
    | some '(' => (true, false, s.adv)
    | some '{' =>
      let s' := s.adv
      (false, true, (s'.consumeSet isWS).2)
    | _ => (false, false, s)
  let (varname, s2) := s1.consumeSet isIdentChar
  if varname = [] then (none, s2)
  else if isCall then
    let s3 := (s2.consumeSet isWS).2
    let (args, s4) := parseCallArgs parseOne argFuel s3 []
    match s4.char with
    | some ')' => (some (.var varname args pctx), s4.adv)
    | _ => (none, cursor)
  else if isBraced then
    let s3 := (s2.consumeSet isWS).2
    match s3.char with
    | some '}' => (some (.var varname [] pctx), s3.adv)
    | _ => (none, cursor)
  else
    (some (.var varname [] pctx), s2)

/-- `Parser._parse_arg`: the main parsing loop.  `acc` is the running
`ConcatNode.nodes` list (appends go through the coalescing
`ConcatNode.append`).  On `$`: `$$` emits a literal `$`; otherwise
`_parse_macro` runs, and on its failure a literal `$` is emitted and —
as in the source — `scanner.next()` then skips the character at the
restored position.  On `\\` the following character is emitted verbatim.
Every recursive call is at the predecessor fuel; each loop iteration
advances the scanner, so `2 * remaining + 2` fuel is always enough. -/
def parseArgF : Nat → CtxRef → Scan → List Char → List Node → List Node × Scan
  | 0, _, s, _, acc => (acc, s)
  | fuel + 1, pctx, s, closing, acc =>
    match s.char with
    | none => (acc, s)
    | some c =>
      if c ∈ closing then (acc, s)
      else if c = '$' then
        let s1 := s.adv
        let node :=
          if s1.char = some '$' then (none, s1)
          else parseMacroF (fun sc => parseArgF fuel pctx sc [')', ','] []
                             |>.map Node.concat id) fuel pctx s1
        match node with
        | (some n, s2) => parseArgF fuel pctx s2 closing (cnAppendNode acc n)
        | (none, s2) => parseArgF fuel pctx s2.adv closing (cnAppendText acc ['$'])
      else if c = '\\' then
        let s1 := s.adv
        match s1.char with
        | some c1 => parseArgF fuel pctx s1.adv closing (cnAppendText acc [c1])
        | none => parseArgF fuel pctx s1 closing (cnAppendText acc ['\\'])
      else
        parseArgF fuel pctx s.adv closing (cnAppendText acc [c])

/-- `Parser.parse(text, context)`: strip the text, scan it from position
0 with an empty closing set, and wrap the resulting nodes in the root
`ConcatNode`. -/
def parseText (text : Str) (pctx : CtxRef) : Node :=
  let t := pyStrip text
  .concat (parseArgF (2 * t.length + 2) pctx ⟨t, 0⟩ [] []).1

/-! ## Evaluation (`ExpressionNode.eval` and the context providers) -/

/-- Assoc-list lookup (Python `dict` access by key). -/
def alget {α : Type} (m : List (Str × α)) (k : Str) : Option α :=
  (m.find? (fun p => decide (p.1 = k))).map (·.2)

/-- Assoc-list update (Python `dict` assignment: replace in place,
otherwise append — insertion order is preserved). -/
def alset {α : Type} (m : List (Str × α)) (k : Str) (v : α) : List (Str × α) :=
  if (alget m k).isSome then m.map (fun p => if p.1 = k then (k, v) else p)
  else m ++ [(k, v)]

/-- The internal macro dictionary of a `MutableContext`
(`self.macros : dict of str -> ExpressionNode`). -/
abbrev MacroMap := List (Str × Node)

/-- A context as `ExpressionNode.eval` consumes it: `get` is
`get_macro`, with `none` for a raised `KeyError`. -/
structure Ctx where
  get : Str → Option Node

/-- A plain `MutableContext` with the given macro dictionary. -/
def mcCtx (m : MacroMap) : Ctx := ⟨fun n => alget m n⟩

/-- `ChainContext`: `get_macro` returns the first constituent's hit. -/
def chainCtx (cs : List Ctx) : Ctx :=
  ⟨fun n => cs.foldl (fun acc c => acc <|> c.get n) none⟩

/-- Python `name.startswith('_')`. -/
def startsUnderscore : Str → Bool
  | '_' :: _ => true
  | _ => false

/-- `WorkspaceContext.get_macro`: the own dictionary first, then (for
names not starting with `_`) the `Globals` builtin table, then the
process environment as `TextNode`s, else `KeyError`. -/
def wsGet (m : MacroMap) (env : List (Str × Str)) (name : Str) : Option Node :=
  match alget m name with
  | some node => some node
  | none =>
    if startsUnderscore name then (alget env name).map .text
    else
      match globalsTable.find? (fun f => decide (f.pyName = name)) with
      | some f => some (.fn f)
      | none => (alget env name).map .text

/-- A `WorkspaceContext` with the given macro dictionary and process
environment. -/
def wsCtx (m : MacroMap) (env : List (Str × Str)) : Ctx := ⟨wsGet m env⟩

/-- `UnitContext._prepare_name`: resolve the namespace through the
unit's alias table, qualify bare names with the unit identifier, and
strip an explicitly empty namespace. -/
def prepareName (uid : Str) (aliases : List (Str × Str)) (name : Str) : Str :=
  let (ns, varname) := parseVar name
  match ns with
  | none => createVar (some uid) varname
  | some s =>
    match alget aliases s with
    | some target => createVar (some target) varname
    | none => if s = [] then createVar none varname else createVar (some s) varname

/-- `UnitContext.get_macro`: look the prepared name up in the workspace
context, falling back to the raw name. -/
def unitCtx (uid : Str) (aliases : List (Str × Str)) (ws : Ctx) : Ctx :=
  ⟨fun name =>
    match ws.get (prepareName uid aliases name) with
    | some n => some n
    | none => ws.get name⟩

/-- A valid digit run for Python `int(...)` after the optional sign:
digits with single underscores strictly between digits. -/
def validDigitTail : Str → Bool
  | [] => true
  | ['_'] => false
  | '_' :: d :: r => d.isDigit && validDigitTail r
  | c :: r => c.isDigit && validDigitTail r

/-- Numeric value of a digit string. -/
def digitsVal (ds : Str) : Nat :=
  ds.foldl (fun a c => a * 10 + (c.toNat - '0'.toNat)) 0

/-- Python `int(s)` on a string: optional surrounding whitespace,
optional sign, then a digit run with underscore grouping; `none` models
the raised `ValueError`. -/
def pyInt (s : Str) : Option Int :=
  let t := pyStrip s
  let signApply : Bool × Str :=
    match t with
    | '+' :: r => (false, r)
    | '-' :: r => (true, r)
    | r => (false, r)
  match signApply with
  | (neg, ds) =>
    if ds ≠ [] && !startsUnderscore ds && validDigitTail ds then
      let v : Int := (digitsVal (ds.filter (· ≠ '_')) : Nat)
      some (if neg then -v else v)
    else none

/-- The builtin functions of `creator.macro.Globals` (the pure modelled
subset).  `ev n` is `n.eval(context, [])`, the only way the builtins
evaluate their argument nodes.  A wrong argument count raises
`TypeError` (`none`). -/
def applyBFun (ev : Node → Option Str) (f : BFun) (args : List Node) : Option Str :=
  match f with
  | .addprefixF =>
    match args with
    | [a0, a1] => do
      let pre ← ev a0
      let items := split (← ev a1)
      some (join (items.map (fun x => pre ++ x)))
    | _ => none
  | .addsuffixF =>
    match args with
    | [a0, a1] => do
      let suf ← ev a0
      let items := split (← ev a1)
      some (join (items.map (fun x => x ++ suf)))
    | _ => none
  | .splitB => do
    let ss ← args.mapM (fun n => (ev n).map pyStrip)
    some (List.intercalate [' '] (split (List.intercalate [';'] ss)))

/-- `ExpressionNode.eval`.  `TextNode` yields its text; `ConcatNode`
joins its children; `Function` invokes the builtin; `VarNode` evaluates
its argument nodes into fresh `TextNode`s, then either accesses a caller
argument (when the name parses as an in-range non-negative `int`) or
resolves the name in the context — a miss yields `''`, a hit evaluates
the found node — stripping the result either way.  The fuel bounds the
depth of evaluation through context-resolved nodes (`none` also stands
for a raised error propagating out of a sub-evaluation). -/
def evalN : Nat → Ctx → Node → List Node → Option Str
  | 0, _, _, _ => none
  | _ + 1, _, .text s, _ => some s
  | fuel + 1, c, .concat ns, args =>
    (ns.mapM (fun n => evalN fuel c n args)).map List.flatten
  | fuel + 1, c, .fn f, args =>
    applyBFun (fun n => evalN fuel c n []) f args
  | fuel + 1, c, .var name nargs _ctx, args =>
    match nargs.mapM (fun n => (evalN fuel c n args).map Node.text) with
    | none => none
    | some subArgs =>
      let argIndex : Option Int := pyInt name
      let inRange : Bool :=
        match argIndex with
        | some i => decide (0 ≤ i) && decide (i < (args.length : Int))
        | none => false
      if inRange then
        match argIndex with
        | some i =>
          match args.get? i.toNat with
          | some a => (evalN fuel c a subArgs).map pyStrip
          | none => none
        | none => none
      else
        match c.get name with
        | none => some []
        | some m => (evalN fuel c m subArgs).map pyStrip

/-- `ExpressionNode.substitute(ref_name, node)`: replace every variable
reference that expands `ref_name` — matched against the local name or,
through the bound context's `get_namespace()`, the qualified
`namespace:name` — by `repl`.  `none` models the `TypeError` raised when
the qualified match consults `get_namespace()` on a context that does
not support the zero-argument call (the plain `MutableContext`).  The
fuel bounds the node depth. -/
def substF : Nat → Str → Node → Node → Option Node
  | 0, _, _, _ => none
  | fuel + 1, ref, repl, n =>
    match n with
    | .text s => some (.text s)
    | .concat ns => (ns.mapM (substF fuel ref repl)).map .concat
    | .fn f => some (.fn f)
    | .var name args ctx =>
      if ref = name then some repl
      else
        match ctx with
        | .dead => (args.mapM (substF fuel ref repl)).map (fun as => .var name as ctx)
        | .noNs => none
        | .named ns =>
          if ref = createVar (some ns) name then some repl
          else (args.mapM (substF fuel ref repl)).map (fun as => .var name as ctx)

/-- `MutableContext.__setitem__` with an `ExpressionNode` value: when
the name is already bound, substitute the old node for every reference
to the name (one pass per alias; `get_aliases` returns `[name]`) before
storing. -/
def mcSetNode (fuel : Nat) (m : MacroMap) (name : Str) (value : Node) :
    Option MacroMap :=
  match alget m name with
  | none => some (alset m name value)
  | some old => (substF fuel name old value).map (alset m name)

/-- `MutableContext.__setitem__` with a string value: the string is
parsed under the context itself first (a plain `MutableContext`, hence
the `noNs` tag). -/
def mcSetStr (fuel : Nat) (m : MacroMap) (name : Str) (value : Str) :
    Option MacroMap :=
  mcSetNode fuel m name (parseText value .noNs)

/-- `UnitContext.__setitem__` (the script-level `define`): parse the
value under the unit context, prepare the name, and store through
`WorkspaceContext.__setitem__` (inherited from `MutableContext`). -/
def ucDefine (fuel : Nat) (uid : Str) (aliases : List (Str × Str))
    (m : MacroMap) (name value : Str) : Option MacroMap :=
  mcSetNode fuel m (prepareName uid aliases name) (parseText value (.named uid))

/-- Parse `text` under a context and evaluate the resulting tree with it
(`creator.macro.parse(text, ctx).eval(ctx, [])`, the evaluation step
shared by `MutableContext.__getitem__` and `Unit.eval`). -/
def evalString (fuel : Nat) (c : Ctx) (pctx : CtxRef) (text : Str) : Option Str :=
  evalN fuel c (parseText text pctx) []

/-- `Unit.eval(text, supp_context, stack_depth)`: evaluate under
`ChainContext(supp_context?, StackFrameContext, unit_context)` (the
stack-frame context is always inserted for the default non-negative
stack depth; it is a parameter here).  Parsing happens under the chain
context, whose `get_namespace` raises, hence the `noNs` tag. -/
def unitEval (fuel : Nat) (sf : Ctx) (base : Ctx) (supp : Option Ctx)
    (text : Str) : Option Str :=
  let cs := (match supp with | some s => [s] | none => []) ++ [sf, base]
  evalString fuel (chainCtx cs) .noNs text

/-! ## Targets (`creator/unit.py`: `Target.build`, `Target.export`)

`creator.utils.normpath` composes `os.path.expanduser`, `os.path.abspath`
and `os.path.normpath`; it depends on the process working directory and
home directory and is taken as a parameter `np` throughout. -/

/-- One element of `Target.command_data`. -/
structure BuildEntry where
  inputs : List Str
  outputs : List Str
  auxiliary : List Str
  command : Str
deriving DecidableEq, Repr

/-- The mutable event payload `Target.build` passes to its listeners. -/
structure BuildData where
  inputs : Str
  outputs : Str
  command : Str
  auxiliary : List Str
  each : Bool

/-- The `for fin, fout in zip(input_files, output_files)` loop of
`Target.build` with `each=True`: the supplementary `MutableContext` is
re-assigned `<` and `@` per pair (the second and later assignments find
the previous `TextNode` bound and run the — trivial on text —
substitution pass), the command is re-parsed and evaluated per pair, and
one entry per pair is appended. -/
def buildEachLoop (fuel : Nat) (sf uc : Ctx) (command : Str)
    (auxiliary : List Str) (cd : List BuildEntry) (m : MacroMap) :
    List (Str × Str) → Option (List BuildEntry)
  | [] => some cd
  | (fin, fout) :: rest => do
    let m1 ← mcSetNode fuel m ['<'] (.text fin)
    let m2 ← mcSetNode fuel m1 ['@'] (.text fout)
    let cmd ← unitEval fuel sf uc (some (mcCtx m2)) command
    buildEachLoop fuel sf uc command auxiliary
      (cd ++ [⟨[fin], [fout], auxiliary, cmd⟩]) m2 rest

/-- `Target.build(inputs, outputs, command, each)`.  The listeners run
first over the event data; the input and output listings are evaluated
through `Unit.eval`, split as semicolon lists and normalized; a fresh
`MutableContext` binds `<` to `creator.utils.join(input_files)` and `@`
to `creator.utils.join(output_files)` (the `each` branch binds them per
pair instead); the command is evaluated with that context chained in
front; exactly one entry per command evaluation is appended to
`command_data` (`cd`). -/
def targetBuild (fuel : Nat) (np : Str → Str) (sf uc : Ctx)
    (listeners : List (BuildData → BuildData)) (cd : List BuildEntry)
    (inputs outputs command : Str) (each : Bool) :
    Option (List BuildEntry) := do
  let data := listeners.foldl (fun d l => l d)
    ⟨inputs, outputs, command, [], each⟩
  let ifiles := (split (← unitEval fuel sf uc none data.inputs)).map np
  let ofiles := (split (← unitEval fuel sf uc none data.outputs)).map np
  if each then
    if ifiles.length ≠ ofiles.length then none
    else
      buildEachLoop fuel sf uc data.command data.auxiliary cd [] (ifiles.zip ofiles)
  else
    let m1 ← mcSetNode fuel [] ['<'] (.text (join ifiles))
    let m2 ← mcSetNode fuel m1 ['@'] (.text (join ofiles))
    let cmd ← unitEval fuel sf uc (some (mcCtx m2)) data.command
    some (cd ++ [⟨ifiles, ofiles, data.auxiliary, cmd⟩])

/-- The evaluation context `Target.build` uses for the command in its
non-`each` branch: a chain of the fresh supplementary `MutableContext` —
holding `<` bound to `join(input_files)` and `@` bound to
`join(output_files)` — the stack-frame context and the unit context
(`si` and `so` are the evaluated input and output listings). -/
def buildCmdCtx (np : Str → Str) (sf uc : Ctx) (si so : Str) : Ctx :=
  chainCtx [mcCtx [(['<'], .text (join ((split si).map np))),
                   (['@'], .text (join ((split so).map np)))], sf, uc]

/-- `creator.ninja.ident`: `re.sub('[^A-Za-z0-9_]+', '_', s)` — every
maximal run of invalid characters becomes one underscore. -/
def ninjaOk (c : Char) : Bool := c.isAlpha || c.isDigit || c = '_'

/-- Worker for `ninjaIdent`; the flag records whether the previous
character was part of an invalid run (already replaced). -/
def ninjaIdentAux : Bool → Str → Str
  | _, [] => []
  | prevBad, c :: r =>
    if ninjaOk c then c :: ninjaIdentAux false r
    else if prevBad then ninjaIdentAux true r
    else '_' :: ninjaIdentAux true r

/-- `creator.ninja.ident(s)`. -/
def ninjaIdent (s : Str) : Str := ninjaIdentAux false s

/-- Python `'{0:04d}'.format(i)`: decimal, zero-padded to width 4. -/
def pad4 (n : Nat) : Str :=
  let d := Nat.toDigits 10 n
  List.replicate (4 - d.length) '0' ++ d

/-- A dependency as `Target.export` reads it: its set-up flag and its
`command_data`. -/
structure DepStub where
  isSetup : Bool
  commandData : List BuildEntry

/-- A target as `Target.export` reads it. -/
structure TargetStub where
  identifier : Str
  isSetup : Bool
  dependencies : List DepStub
  commandData : List BuildEntry

/-- A `writer.build(outputs, rule, inputs)` call recorded by export. -/
structure Edge where
  outputs : List Str
  rule : Str
  inputs : List Str
deriving DecidableEq, Repr

/-- Everything `Target.export` emits through the ninja writer: the
`rule` directives (name, command), the per-entry `build` edges, and the
final phony aggregator edge. -/
structure ExportOut where
  rules : List (Str × Str)
  edges : List Edge
  phony : Edge
deriving DecidableEq, Repr

/-- `infiles.add`-style insertion: Python builds a `set` of the
normalized dependency outputs; membership and uniqueness are what the
consumers observe (the iteration order of a Python `set` is
unspecified — this model fixes first-insertion order). -/
def dedupInsert (acc : List Str) (x : Str) : List Str :=
  if x ∈ acc then acc else acc ++ [x]

/-- Insert every element of `xs` into the set-model `acc`. -/
def insertAll (acc : List Str) (xs : List Str) : List Str :=
  xs.foldl dedupInsert acc

/-- The dependency loop of `Target.export` with the running `infiles`
accumulator: a non-set-up dependency raises `RuntimeError`; otherwise
every normalized output of every entry of every dependency is unioned
into `infiles`. -/
def depInfilesAux (np : Str → Str) : List DepStub → List Str → Option (List Str)
  | [], acc => some acc
  | d :: rest, acc =>
    if d.isSetup then
      depInfilesAux np rest
        (d.commandData.foldl (fun a e => insertAll a (e.outputs.map np)) acc)
    else none

/-- The `infiles` set of `Target.export`, starting empty. -/
def depInfiles (np : Str → Str) (deps : List DepStub) : Option (List Str) :=
  depInfilesAux np deps []

/-- All normalized outputs of all entries of all dependencies, in
traversal order (the multiset `infiles` deduplicates). -/
def depOutputs (np : Str → Str) (deps : List DepStub) : List Str :=
  (deps.map (fun d =>
    (d.commandData.map (fun e => e.outputs.map np)).flatten)).flatten

/-- The entry loop of `Target.export`: entry `i` gets rule name
`ident(identifier + '_%04d' % i)`, a `rule` directive with its command,
and a `build` edge whose inputs are
`list(entry['inputs']) + infiles + entry['auxiliary']`; its outputs
accumulate into the phony list.  The `assert len(entry['outputs']) != 0`
is the `none` case. -/
def exportEdges (tid : Str) (infl : List Str) :
    Nat → List BuildEntry → Option (List (Str × Str) × List Edge × List Str)
  | _, [] => some ([], [], [])
  | i, e :: rest =>
    if e.outputs = [] then none
    else do
      let rname := ninjaIdent (tid ++ '_' :: pad4 i)
      let (rules, edges, phonies) ← exportEdges tid infl (i + 1) rest
      some ((rname, e.command) :: rules,
        Edge.mk e.outputs rname (e.inputs ++ infl ++ e.auxiliary) :: edges,
        e.outputs ++ phonies)

/-- `Target.export(writer)` (the current core's version in
`creator/unit.py`). -/
def targetExport (np : Str → Str) (t : TargetStub) : Option ExportOut :=
  if ¬t.isSetup then none
  else do
    let infl ← depInfiles np t.dependencies
    let (rules, edges, phonies) ← exportEdges t.identifier infl 0 t.commandData
    some ⟨rules, edges, ⟨[ninjaIdent t.identifier], "phony".toList, phonies⟩⟩

/-! ## Workspace unit loading (`Workspace.load_unit`) -/

/-- What `Workspace.load_unit` records about a unit (the constructed
`Unit` object, reduced to the attributes the units registry exposes). -/
structure UnitStub where
  projectPath : Str
  identifier : Str
deriving DecidableEq, Repr

/-- The `Workspace.units` registry. -/
abbrev UnitsMap := List (Str × UnitStub)

/-- The exceptions `load_unit` can propagate. -/
inductive PyErr where
  | unitNotFound (id : Str)
  | valueError
  | keyError
  | scriptError (code : Nat)
deriving DecidableEq, Repr

/-- Python `identifier.startswith('static|')`. -/
def startsStatic (s : Str) : Bool := "static|".toList.isPrefixOf s

/-- The collaborators of `Workspace.load_unit`: the search-path lookup
`find_unit` (`none` = `UnitNotFoundError`), `os.path.abspath`,
`os.path.dirname`, and the unit-script execution
(`Unit.run_unit_script` runs arbitrary code that observes and mutates
the `units` registry and may raise). -/
structure LoadEnv where
  findUnit : Str → Option Str
  abspath : Str → Str
  dirname : Str → Str
  runScript : Str → UnitsMap → UnitsMap × Option PyErr

/-- `Workspace.load_unit(identifier)`: return an already-registered
unit as is; otherwise locate the script, construct the `Unit` (whose
identifier setter validates non-`static|` identifiers), register it
*before* executing the script, and on a script exception delete the
registration (`del self.units[identifier]` — a `KeyError` if the script
itself removed the entry) and re-raise. -/
def loadUnit (env : LoadEnv) (units : UnitsMap) (id : Str) :
    UnitsMap × Except PyErr UnitStub :=
  match alget units id with
  | some u => (units, .ok u)
  | none =>
    match env.findUnit id with
    | none => (units, .error (.unitNotFound id))
    | some filename0 =>
      if ¬startsStatic id ∧ ¬validateIdentifier id then
        (units, .error .valueError)
      else
        match env.runScript (env.abspath filename0)
          (alset units id ⟨env.dirname (env.abspath filename0), id⟩) with
        | (m, none) => (m, .ok ⟨env.dirname (env.abspath filename0), id⟩)
        | (m, some e) =>
          if (alget m id).isSome then
            (m.filter (fun p => ¬(p.1 = id)), .error e)
          else (m, .error .keyError)

/-! ## Small auxiliary definitions used by the statements below -/

/-- A context that resolves nothing (every lookup raises `KeyError`). -/
def emptyCtx : Ctx := ⟨fun _ => none⟩

/-- A character that the parser treats as plain text: neither the macro
introducer `$` nor the escape character `\\`. -/
def plainChar (c : Char) : Bool := !(c = '$' || c = '\\')

/-! # Theorems -/

/-! ## `str.strip` idempotence (for the parse/strip claims) -/

theorem dropWhile_dropWhile_eq (p : Char → Bool) (l : Str) :
    (l.dropWhile p).dropWhile p = l.dropWhile p := by
  cases h : l.dropWhile p with
  | nil => simp
  | cons c r =>
    have hh := List.head?_dropWhile_not p l
    rw [h] at hh
    simp only [List.head?_cons] at hh
    simp [List.dropWhile_cons, hh]

theorem pyRStrip_idem (s : Str) : pyRStrip (pyRStrip s) = pyRStrip s := by
  simp [pyRStrip, dropWhile_dropWhile_eq]

theorem pyRStrip_prefix (s : Str) : pyRStrip s <+: s := by
  have h : s.reverse.dropWhile isWS <:+ s.reverse.reverse.reverse :=
    by simpa using List.dropWhile_suffix (l := s.reverse) isWS
  have h2 := List.reverse_prefix.mpr h
  simpa [pyRStrip] using h2

theorem prefix_head? {l₁ l : Str} (h : l₁ <+: l) (hne : l₁ ≠ []) :
    l.head? = l₁.head? := by
  obtain ⟨t, rfl⟩ := h
  cases l₁ with
  | nil => exact absurd rfl hne
  | cons c r => simp

theorem pyLStrip_head?_not (s : Str) :
    ∀ c, (pyLStrip s).head? = some c → isWS c = false := by
  intro c hc
  have hh := List.head?_dropWhile_not isWS s
  rw [show s.dropWhile isWS = pyLStrip s from rfl, hc] at hh
  exact hh

theorem pyLStrip_of_head {l : Str} (h : ∀ c, l.head? = some c → isWS c = false) :
    pyLStrip l = l := by
  cases l with
  | nil => rfl
  | cons c r =>
    have := h c rfl
    simp [pyLStrip, List.dropWhile_cons, this]

theorem pyStrip_idem (s : Str) : pyStrip (pyStrip s) = pyStrip s := by
  show pyRStrip (pyLStrip (pyRStrip (pyLStrip s))) = pyRStrip (pyLStrip s)
  have h1 : pyLStrip (pyRStrip (pyLStrip s)) = pyRStrip (pyLStrip s) := by
    apply pyLStrip_of_head
    intro c hc
    have hpre := pyRStrip_prefix (pyLStrip s)
    have hne : pyRStrip (pyLStrip s) ≠ [] := by
      intro he
      rw [he] at hc
      exact (Option.noConfusion hc)
    have := prefix_head? hpre hne
    exact pyLStrip_head?_not s c (this.trans hc)
  rw [h1, pyRStrip_idem]

/-- C10: `Parser.parse` hands the scanner `text.strip()`, so parsing —
and therefore parse-then-evaluate, the body of `Unit.eval` — gives the
same result for `text` and for `text.strip()`; the surrounding
whitespace of the input never reaches the expression tree. -/
theorem C10_parse_strips_input :
    ∀ (text : Str) (pctx : CtxRef) (fuel : Nat) (c : Ctx),
      parseText text pctx = parseText (pyStrip text) pctx ∧
      evalString fuel c pctx text = evalString fuel c pctx (pyStrip text) := by
  intro text pctx fuel c
  have h : parseText text pctx = parseText (pyStrip text) pctx := by
    unfold parseText
    rw [pyStrip_idem]
  exact ⟨h, by unfold evalString; rw [h]⟩

/-! ## C1: self-reference is inlined once on reassignment -/

/-- C1: after `define("x", "foo")` then `define("x", "$x;bar")` in the
same context, `eval("$x")` is `"foo;bar"`: on reassignment,
`MutableContext.__setitem__` substitutes the old node for every
reference to the name inside the new value before storing, so the
self-reference is inlined once and evaluation terminates.  First
conjunct: a plain `MutableContext` (the reference matches the local
name).  Second conjunct: the same script-level scenario through
`UnitContext` in unit `u`, where the stored key is the qualified `u:x`
and the substitution matches through the bound context's namespace
(`u` + `x` = alias `u:x`). -/
theorem C1_reassignment_inlines_previous_value :
    ((do
      let m1 ← mcSetStr 50 [] "x".toList "foo".toList
      let m2 ← mcSetStr 50 m1 "x".toList "$x;bar".toList
      evalString 50 (mcCtx m2) .noNs "$x".toList) = some "foo;bar".toList) ∧
    ((do
      let w1 ← ucDefine 50 "u".toList [("self".toList, "u".toList)] []
        "x".toList "foo".toList
      let w2 ← ucDefine 50 "u".toList [("self".toList, "u".toList)] w1
        "x".toList "$x;bar".toList
      evalString 50 (unitCtx "u".toList [("self".toList, "u".toList)] (wsCtx w2 []))
        .noNs "$x".toList) = some "foo;bar".toList) :=
  ⟨rfl, rfl⟩

/-! ## C3: unterminated `${X` -/

/-- C3: at the failing input `"${X"` (with `X` bound to `"ok"`), the
parser does *not* preserve the source text: `_parse_macro` restores the
scanner to the position *after* the `$` (the `{`), `_parse_arg` emits a
literal `$` and its `char = scanner.next()` then skips the restored
character, so the `{` is dropped and evaluation yields `"$X"`, not the
claimed `"${X"`. -/
theorem C3_unterminated_braced_macro_drops_brace :
    evalString 50 (mcCtx [("X".toList, .text "ok".toList)]) .noNs "$\x7bX".toList =
      some "$X".toList ∧
    parseText "$\x7bX".toList .noNs = .concat [.text "$X".toList] ∧
    some "$X".toList ≠ some "$\x7bX".toList := by
  refine ⟨rfl, rfl, by decide⟩

/-! ## C5: `addprefix` -/

/-- C5 (counterexample): `eval("$(addprefix -I,a;b;c)")` under the
workspace context is *not* the space-joined `"-Ia -Ib -Ic"` — the
builtin re-encodes its result with `creator.utils.join`. -/
theorem C5_addprefix_counterexample :
    evalString 50 (wsCtx [] []) (.named []) "$(addprefix -I,a;b;c)".toList ≠
      some "-Ia -Ib -Ic".toList := by
  decide

/-- C5 (amended): `addprefix` with exactly two arguments prepends the
prefix to each item of the semicolon-list argument and re-encodes the
result as a semicolon list:
`eval("$(addprefix -I,a;b;c)") == "-Ia;-Ib;-Ic"`. -/
theorem C5_addprefix_semicolon_list :
    evalString 50 (wsCtx [] []) (.named []) "$(addprefix -I,a;b;c)".toList =
      some "-Ia;-Ib;-Ic".toList :=
  rfl

/-! ## C6: unresolved variables -/

/-- C6 (counterexample): a variable reference whose name is neither an
integer index nor resolvable can still raise: `VarNode.eval` evaluates
its argument nodes *before* the recovered lookup, and an error there —
here `addprefix` called with zero arguments, a `TypeError` — propagates
(`none`), so the node does not evaluate to the empty string. -/
theorem C6_raising_argument_counterexample :
    pyInt "nosuch".toList = none ∧
    (wsCtx [] []).get "nosuch".toList = none ∧
    evalN 20 (wsCtx [] [])
      (.var "nosuch".toList [.var "addprefix".toList [] (.named [])] (.named [])) [] =
      none ∧
    (none : Option Str) ≠ some [] :=
  ⟨rfl, rfl, rfl, by decide⟩

/-- C6 (amended): when the argument nodes of the reference evaluate
without error, a `VarNode` whose name neither indexes the caller
arguments nor resolves in the context evaluates to the empty string —
the miss itself is recovered silently, never raised. -/
theorem C6_unresolved_var_empty (fuel : Nat) (c : Ctx) (name : Str)
    (nargs args : List Node) (pctx : CtxRef) (subArgs : List Node)
    (hargs : nargs.mapM (fun n => (evalN fuel c n args).map Node.text) = some subArgs)
    (hint : ∀ i : Int, pyInt name = some i → i < 0 ∨ (args.length : Int) ≤ i)
    (hmiss : c.get name = none) :
    evalN (fuel + 1) c (.var name nargs pctx) args = some [] := by
  rw [show evalN (fuel + 1) c (.var name nargs pctx) args =
      (match nargs.mapM (fun n => (evalN fuel c n args).map Node.text) with
      | none => none
      | some subArgs =>
        let argIndex : Option Int := pyInt name
        let inRange : Bool :=
          match argIndex with
          | some i => decide (0 ≤ i) && decide (i < (args.length : Int))
          | none => false
        if inRange then
          match argIndex with
          | some i =>
            match args.get? i.toNat with
            | some a => (evalN fuel c a subArgs).map pyStrip
            | none => none
          | none => none
        else
          match c.get name with
          | none => some []
          | some m => (evalN fuel c m subArgs).map pyStrip) from rfl]
  rw [hargs]
  cases hpi : pyInt name with
  | none => simp [hpi, hmiss]
  | some i =>
    have hi := hint i hpi
    have : (decide (0 ≤ i) && decide (i < (args.length : Int))) = false := by
      rcases hi with hlt | hle
      · simp [decide_eq_false (not_le.mpr hlt)]
      · simp [decide_eq_false (not_lt.mpr hle)]
    simp [hpi, this, hmiss]

/-- Witness for `C6_unresolved_var_empty` at a concrete miss. -/
theorem C6_unresolved_var_empty_witness :
    evalN 1 (mcCtx []) (.var "nosuch".toList [] .noNs) [] = some [] := by
  refine C6_unresolved_var_empty 0 (mcCtx []) "nosuch".toList [] [] .noNs [] rfl ?_ rfl
  intro i h
  have hnone : pyInt "nosuch".toList = none := rfl
  rw [hnone] at h
  exact Option.noConfusion h

/-! ## C8: `load_unit` registration contract -/

/-- C8: `Workspace.load_unit` (1) returns an already-registered unit as
is, for *any* collaborators — in particular without re-running any
script or touching the registry; (2) whenever it propagates an
exception, the resulting registry has no entry for the identifier (the
pre-registration is rolled back, and a never-registered identifier was
never inserted); (3) the entry is registered *before* the script runs: a
probe script that fails unless it can already observe the identifier in
the registry sees it, so loading succeeds. -/
theorem C8_load_unit_contract :
    (∀ (env : LoadEnv) (units : UnitsMap) (id : Str) (u : UnitStub),
      alget units id = some u → loadUnit env units id = (units, .ok u)) ∧
    (∀ (env : LoadEnv) (units : UnitsMap) (id : Str) (m : UnitsMap) (e : PyErr),
      loadUnit env units id = (m, .error e) → alget m id = none) ∧
    (∀ (fU : Str → Option Str) (ab dn : Str → Str) (units : UnitsMap) (id fn : Str),
      alget units id = none → fU id = some fn →
      (startsStatic id = true ∨ validateIdentifier id = true) →
      loadUnit
        ⟨fU, ab, dn,
          fun _ s => (s, if (alget s id).isSome then none else some (.scriptError 0))⟩
        units id =
        (alset units id ⟨dn (ab fn), id⟩, .ok ⟨dn (ab fn), id⟩)) := by
  refine ⟨?_, ?_, ?_⟩
  · intro env units id u h
    simp only [loadUnit, h]
  · intro env units id m e h
    unfold loadUnit at h
    split at h
    · exact absurd (congrArg Prod.snd h) (by simp)
    · rename_i heq
      split at h
      · injection h with h1 h2
        exact h1 ▸ heq
      · split at h
        · injection h with h1 h2
          exact h1 ▸ heq
        · split at h
          · exact absurd (congrArg Prod.snd h) (by simp)
          · rename_i m' e' heq2
            split at h
            · injection h with h1 h2
              rw [← h1]
              simp only [alget, Option.map_eq_none', List.find?_eq_none]
              intro x hx
              simpa using (List.mem_filter.mp hx).2
            · rename_i hm
              injection h with h1 h2
              rw [← h1]
              exact Option.not_isSome_iff_eq_none.mp hm
  · intro fU ab dn units id fn hg hf hv
    have hval : ¬(¬startsStatic id = true ∧ ¬validateIdentifier id = true) := by
      rcases hv with h | h <;> simp [h]
    have hfind : units.find? (fun p => decide (p.1 = id)) = none :=
      Option.map_eq_none'.mp hg
    have hin : alget (alset units id ⟨dn (ab fn), id⟩) id = some ⟨dn (ab fn), id⟩ := by
      unfold alset
      rw [hg]
      simp only [Option.isSome_none, Bool.false_eq_true, if_false]
      unfold alget
      rw [List.find?_append, hfind]
      simp
    simp only [loadUnit, hg, hf, if_neg hval, hin, Option.isSome_some, if_true]

/-! ## C4: `Target.build` with `each=false` -/

/-- `Target.build` with no listeners and `each=false`, written as the
evaluation pipeline it is: evaluate and split the two listings, then
evaluate the command under `buildCmdCtx`, and append exactly one entry.
This is a definitional unfolding of `targetBuild`. -/
theorem targetBuild_false_eq (fuel : Nat) (np : Str → Str) (sf uc : Ctx)
    (cd : List BuildEntry) (inputs outputs command : Str) :
    targetBuild fuel np sf uc [] cd inputs outputs command false =
      (unitEval fuel sf uc none inputs).bind fun si =>
      (unitEval fuel sf uc none outputs).bind fun so =>
      (evalString fuel (buildCmdCtx np sf uc si so) .noNs command).bind fun cmd =>
      some (cd ++ [⟨(split si).map np, (split so).map np, [], cmd⟩]) :=
  rfl

/-- C4 (counterexample): building with inputs `"a;b"`, outputs `"o"` and
command `"$<"` records the command `"a;b"` — `$<` expands to the
*semicolon*-joined (`creator.utils.join`) evaluated input list, not the
space-joined one the claim states. -/
theorem C4_space_join_counterexample :
    targetBuild 20 (fun s => s) emptyCtx emptyCtx [] []
        "a;b".toList "o".toList "$<".toList false =
      some [⟨["a".toList, "b".toList], ["o".toList], [], "a;b".toList⟩] ∧
    "a;b".toList ≠ "a b".toList :=
  ⟨rfl, by decide⟩

/-- C4 (amended): every listener-free `Target.build` call with
`each=false` whose evaluations succeed appends exactly one entry to
`command_data`, and while the command is evaluated the macro `$<` is
bound (as a `TextNode`) to the *semicolon-list-joined* evaluated input
file list and `$@` to the semicolon-list-joined evaluated output file
list. -/
theorem C4_build_one_entry_semicolon_bound (fuel : Nat) (np : Str → Str)
    (sf uc : Ctx) (cd : List BuildEntry) (inputs outputs command si so : Str)
    (hi : unitEval fuel sf uc none inputs = some si)
    (ho : unitEval fuel sf uc none outputs = some so) :
    (buildCmdCtx np sf uc si so).get ['<'] =
      some (.text (join ((split si).map np))) ∧
    (buildCmdCtx np sf uc si so).get ['@'] =
      some (.text (join ((split so).map np))) ∧
    ∀ cmd : Str,
      evalString fuel (buildCmdCtx np sf uc si so) .noNs command = some cmd →
      targetBuild fuel np sf uc [] cd inputs outputs command false =
        some (cd ++ [⟨(split si).map np, (split so).map np, [], cmd⟩]) := by
  refine ⟨rfl, rfl, ?_⟩
  intro cmd hcmd
  rw [targetBuild_false_eq, hi, Option.some_bind, ho, Option.some_bind, hcmd,
    Option.some_bind]

/-- Witness for `C4_build_one_entry_semicolon_bound` at the concrete
call of the counterexample. -/
theorem C4_build_one_entry_semicolon_bound_witness :
    targetBuild 20 (fun s => s) emptyCtx emptyCtx [] []
        "a;b".toList "o".toList "$<".toList false =
      some [⟨(split "a;b".toList).map (fun s => s),
        (split "o".toList).map (fun s => s), [], "a;b".toList⟩] :=
  (C4_build_one_entry_semicolon_bound 20 (fun s => s) emptyCtx emptyCtx []
    "a;b".toList "o".toList "$<".toList "a;b".toList "o".toList rfl rfl).2.2
    "a;b".toList rfl

/-! ## C7: dependency outputs in exported build edges -/

theorem mem_dedupInsert (q x : Str) (acc : List Str) :
    q ∈ dedupInsert acc x ↔ q ∈ acc ∨ q = x := by
  unfold dedupInsert
  split
  · rename_i hx
    constructor
    · exact Or.inl
    · rintro (h | rfl)
      · exact h
      · exact hx
  · simp [List.mem_append]

theorem nodup_dedupInsert (x : Str) (acc : List Str) (h : acc.Nodup) :
    (dedupInsert acc x).Nodup := by
  unfold dedupInsert
  split
  · exact h
  · rename_i hx
    simp [List.nodup_append, h, hx]

theorem mem_insertAll (q : Str) (xs : List Str) : ∀ acc,
    (q ∈ insertAll acc xs ↔ q ∈ acc ∨ q ∈ xs) := by
  induction xs with
  | nil => intro acc; simp [insertAll]
  | cons x r ih =>
    intro acc
    have : insertAll acc (x :: r) = insertAll (dedupInsert acc x) r := rfl
    rw [this, ih, mem_dedupInsert]
    simp [or_assoc]

theorem nodup_insertAll (xs : List Str) : ∀ acc, acc.Nodup →
    (insertAll acc xs).Nodup := by
  induction xs with
  | nil => intro acc h; exact h
  | cons x r ih => intro acc h; exact ih _ (nodup_dedupInsert _ _ h)

theorem mem_entriesFold (np : Str → Str) (q : Str) (es : List BuildEntry) :
    ∀ acc, (q ∈ es.foldl (fun a e => insertAll a (e.outputs.map np)) acc ↔
      q ∈ acc ∨ q ∈ (es.map (fun e => e.outputs.map np)).flatten) := by
  induction es with
  | nil => intro acc; simp
  | cons e r ih =>
    intro acc
    have : (e :: r).foldl (fun a e => insertAll a (e.outputs.map np)) acc =
        r.foldl (fun a e => insertAll a (e.outputs.map np))
          (insertAll acc (e.outputs.map np)) := rfl
    rw [this, ih, mem_insertAll]
    simp [or_assoc]

theorem nodup_entriesFold (np : Str → Str) (es : List BuildEntry) :
    ∀ acc, acc.Nodup →
      (es.foldl (fun a e => insertAll a (e.outputs.map np)) acc).Nodup := by
  induction es with
  | nil => intro acc h; exact h
  | cons e r ih => intro acc h; exact ih _ (nodup_insertAll _ _ h)

theorem depInfilesAux_spec (np : Str → Str) (deps : List DepStub) :
    ∀ acc infl, depInfilesAux np deps acc = some infl →
      (acc.Nodup → infl.Nodup) ∧
      (∀ q, q ∈ infl ↔ q ∈ acc ∨ q ∈ depOutputs np deps) := by
  induction deps with
  | nil =>
    intro acc infl h
    injection h with h'
    subst h'
    exact ⟨fun hn => hn, fun q => by simp [depOutputs]⟩
  | cons d r ih =>
    intro acc infl h
    unfold depInfilesAux at h
    split at h
    · obtain ⟨h1, h2⟩ := ih _ _ h
      refine ⟨fun hn => h1 (nodup_entriesFold np _ _ hn), fun q => ?_⟩
      rw [h2 q, mem_entriesFold]
      simp [depOutputs, or_assoc]
    · exact absurd h (by simp)

theorem count_eq_one_of_nodup_mem {l : List Str} {p : Str}
    (hnd : l.Nodup) (hmem : p ∈ l) : l.count p = 1 := by
  induction l with
  | nil => simp at hmem
  | cons a r ih =>
    obtain ⟨hna, hnr⟩ := List.nodup_cons.mp hnd
    rw [List.count_cons]
    rcases List.mem_cons.mp hmem with rfl | hm
    · rw [List.count_eq_zero.mpr hna]
      simp
    · have hne : a ≠ p := fun h => hna (h ▸ hm)
      rw [ih hnr hm, beq_eq_false_iff_ne.mpr hne]
      simp

theorem exportEdges_mem (tid : Str) (infl : List Str) (es : List BuildEntry) :
    ∀ i res, exportEdges tid infl i es = some res →
      ∀ e ∈ res.2.1, ∃ entry, entry ∈ es ∧
        e.inputs = entry.inputs ++ infl ++ entry.auxiliary := by
  induction es with
  | nil =>
    intro i res h e he
    injection h with h'
    rw [← h'] at he
    simp at he
  | cons entry rest ih =>
    intro i res h e he
    unfold exportEdges at h
    split at h
    · exact absurd h (by simp)
    · cases hrec : exportEdges tid infl (i + 1) rest with
      | none => rw [hrec] at h; exact absurd h (by simp)
      | some triple =>
        obtain ⟨rules', edges', phonies'⟩ := triple
        rw [hrec] at h
        simp only [Option.bind_eq_bind, Option.some_bind] at h
        injection h with h'
        rw [← h'] at he
        simp only at he
        rcases List.mem_cons.mp he with rfl | he'
        · exact ⟨entry, List.mem_cons_self .., rfl⟩
        · obtain ⟨en, hen, heq⟩ := ih (i + 1) _ hrec e he'
          exact ⟨en, List.mem_cons_of_mem _ hen, heq⟩

/-- C7 (counterexample): a target with one dependency entry producing
`a` (normalized `/a`) and one own entry that already lists `/a` among
its inputs emits a build edge in which `/a` appears *twice*, not exactly
once. -/
theorem C7_dep_output_twice_counterexample :
    depOutputs (fun s => '/' :: s) [⟨true, [⟨[], [['a']], [], ['c']⟩]⟩] =
      [['/', 'a']] ∧
    (targetExport (fun s => '/' :: s)
        ⟨['p'], true, [⟨true, [⟨[], [['a']], [], ['c']⟩]⟩],
          [⟨[['/', 'a']], [['b']], [], ['l']⟩]⟩).map
      (fun out => out.edges.map (fun e => e.inputs.count ['/', 'a'])) =
      some [2] ∧
    (2 : Nat) ≠ 1 := by
  refine ⟨rfl, rfl, by decide⟩

/-- C7 (amended): in every edge emitted by `Target.export`, every
normalized output of every dependency entry appears exactly once *in
the appended `infiles` block* — its total count in the edge's input list
is one more than its count among the entry's own (already normalized)
inputs plus its count among the auxiliary files; in particular it
appears exactly once whenever the entry does not already list it. -/
theorem C7_dep_outputs_once_in_infiles (np : Str → Str) (t : TargetStub)
    (out : ExportOut) (h : targetExport np t = some out) (p : Str)
    (hp : p ∈ depOutputs np t.dependencies) :
    ∀ e ∈ out.edges, ∃ entry, entry ∈ t.commandData ∧
      e.inputs.count p = entry.inputs.count p + 1 + entry.auxiliary.count p := by
  unfold targetExport at h
  split at h
  · exact absurd h (by simp)
  · cases hdi : depInfiles np t.dependencies with
    | none => rw [hdi] at h; exact absurd h (by simp)
    | some infl =>
      rw [hdi] at h
      simp only [Option.bind_eq_bind, Option.some_bind] at h
      cases hee : exportEdges t.identifier infl 0 t.commandData with
      | none => rw [hee] at h; exact absurd h (by simp)
      | some triple =>
        obtain ⟨rules, edges, phonies⟩ := triple
        rw [hee] at h
        simp only [Option.bind_eq_bind, Option.some_bind] at h
        injection h with h'
        have spec := depInfilesAux_spec np t.dependencies [] infl hdi
        have hnd : infl.Nodup := spec.1 List.nodup_nil
        have hmem : p ∈ infl := (spec.2 p).mpr (by simp [hp])
        have hone : infl.count p = 1 := count_eq_one_of_nodup_mem hnd hmem
        intro e he
        have he' : e ∈ edges := by
          have : out.edges = edges := by rw [← h']
          rw [this] at he
          exact he
        obtain ⟨entry, hen, heq⟩ := exportEdges_mem t.identifier infl
          t.commandData 0 _ hee e he'
        refine ⟨entry, hen, ?_⟩
        rw [heq, List.count_append, List.count_append, hone]

/-- Witness for `C7_dep_outputs_once_in_infiles` at the counterexample
target: the single edge's input list counts `/a` twice — the entry's own
occurrence plus the one occurrence from the `infiles` block. -/
theorem C7_dep_outputs_once_in_infiles_witness :
    ∃ entry, entry ∈ [(⟨[['/', 'a']], [['b']], [], ['l']⟩ : BuildEntry)] ∧
      (Edge.mk [['b']] "p_0000".toList [['/', 'a'], ['/', 'a']]).inputs.count
          ['/', 'a'] =
        entry.inputs.count ['/', 'a'] + 1 + entry.auxiliary.count ['/', 'a'] :=
  C7_dep_outputs_once_in_infiles (fun s => '/' :: s)
    ⟨['p'], true, [⟨true, [⟨[], [['a']], [], ['c']⟩]⟩],
      [⟨[['/', 'a']], [['b']], [], ['l']⟩]⟩
    ⟨[("p_0000".toList, ['l'])],
      [⟨[['b']], "p_0000".toList, [['/', 'a'], ['/', 'a']]⟩],
      ⟨[['p']], "phony".toList, [['b']]⟩⟩
    rfl ['/', 'a'] (by decide)
    ⟨[['b']], "p_0000".toList, [['/', 'a'], ['/', 'a']]⟩ (by decide)

/-! ## C9: idempotence of evaluation -/

/-- C9 (counterexample): idempotence fails on text with no macro
references at all (so the claim's referenced-macros condition holds
vacuously): `eval("$$$$") = "$$"` but `eval("$$") = "$"` — the `$$`
escape collapses on every pass. -/
theorem C9_idempotence_counterexample :
    evalString 50 (mcCtx []) .noNs "$$$$".toList = some "$$".toList ∧
    (evalString 50 (mcCtx []) .noNs "$$$$".toList).bind
      (evalString 50 (mcCtx []) .noNs) = some "$".toList ∧
    some "$".toList ≠ some "$$".toList := by
  refine ⟨rfl, rfl, by decide⟩

theorem foldl_cnAppendText_text (cs : Str) : ∀ t, t ≠ [] →
    cs.foldl (fun a ch => cnAppendText a [ch]) [Node.text t] =
      [Node.text (t ++ cs)] := by
  induction cs with
  | nil => intro t _; simp
  | cons c r ih =>
    intro t _
    rw [List.foldl_cons,
      show cnAppendText [Node.text t] [c] = [Node.text (t ++ [c])] from rfl,
      ih (t ++ [c]) (by simp)]
    simp

theorem parse_plain_chars (f : Nat) : ∀ (content : Str) (pos : Nat)
    (acc : List Node) (pctx : CtxRef),
    (∀ ch ∈ content.drop pos, plainChar ch) → content.length < pos + f →
    (parseArgF f pctx ⟨content, pos⟩ [] acc).1 =
      (content.drop pos).foldl (fun a ch => cnAppendText a [ch]) acc := by
  induction f with
  | zero =>
    intro content pos acc pctx hpl hf
    rw [List.drop_eq_nil_of_le (by omega)]
    rfl
  | succ f ih =>
    intro content pos acc pctx hpl hf
    cases hc : content[pos]? with
    | none =>
      have hlen : content.length ≤ pos := by
        by_contra hl
        push_neg at hl
        rw [List.getElem?_eq_getElem hl] at hc
        cases hc
      rw [List.drop_eq_nil_of_le hlen]
      unfold parseArgF
      rw [show (Scan.mk content pos).char = none from hc]
      rfl
    | some c =>
      have hpos : pos < content.length := by
        by_contra hl
        push_neg at hl
        rw [List.getElem?_eq_none hl] at hc
        cases hc
      have hdrop : content.drop pos = c :: content.drop (pos + 1) := by
        rw [List.drop_eq_getElem_cons hpos]
        congr 1
        have := List.getElem?_eq_getElem hpos
        rw [this] at hc
        exact Option.some.inj hc
      have hcpl : plainChar c = true := hpl c (by rw [hdrop]; exact List.mem_cons_self ..)
      have hc1 : ¬c = '$' := by
        intro hh
        rw [hh] at hcpl
        exact absurd hcpl (by decide)
      have hc2 : ¬c = '\\' := by
        intro hh
        rw [hh] at hcpl
        exact absurd hcpl (by decide)
      unfold parseArgF
      rw [show (Scan.mk content pos).char = some c from hc]
      simp only [List.not_mem_nil, if_false, if_neg hc1, if_neg hc2]
      rw [show (Scan.mk content pos).adv = Scan.mk content (pos + 1) from rfl,
        ih content (pos + 1) (cnAppendText acc [c]) pctx
          (fun ch hch => hpl ch (by rw [hdrop]; exact List.mem_cons_of_mem _ hch))
          (by omega),
        hdrop, List.foldl_cons]

theorem parseText_plain (s : Str) (pctx : CtxRef)
    (hpl : ∀ ch ∈ s, plainChar ch) (hstrip : pyStrip s = s) :
    parseText s pctx = .concat (s.foldl (fun a ch => cnAppendText a [ch]) []) := by
  unfold parseText
  rw [hstrip]
  have h := parse_plain_chars (2 * s.length + 2) s 0 [] pctx
    (by simpa using hpl) (by omega)
  simpa using h

/-- C9 (amended): evaluation is idempotent whenever the first pass
succeeds and its result is plain — it contains no `$` and no `\\` and
carries no leading or trailing whitespace (as is the case when the
referenced macros are `TextNode`s with such text): then the second parse
maps the result to a single `TextNode` and evaluation returns it
unchanged. -/
theorem C9_eval_idempotent_on_plain_result (fuel : Nat) (c : Ctx) (pctx : CtxRef)
    (text s : Str) (h : evalString fuel c pctx text = some s)
    (hplain : ∀ ch ∈ s, plainChar ch) (hstrip : pyStrip s = s)
    (hfuel : 2 ≤ fuel) :
    (evalString fuel c pctx text).bind (evalString fuel c pctx) =
      evalString fuel c pctx text := by
  rw [h, Option.some_bind]
  obtain ⟨k, rfl⟩ : ∃ k, fuel = k + 2 := ⟨fuel - 2, by omega⟩
  unfold evalString
  rw [parseText_plain s pctx hplain hstrip]
  cases s with
  | nil => rfl
  | cons c0 r =>
    rw [show (c0 :: r).foldl (fun a ch => cnAppendText a [ch]) [] =
        r.foldl (fun a ch => cnAppendText a [ch]) [Node.text [c0]] from rfl,
      foldl_cnAppendText_text r [c0] (by simp), List.singleton_append]
    show evalN (k + 1 + 1) c (.concat [.text (c0 :: r)]) [] = some (c0 :: r)
    simp only [evalN, Option.map_eq_some']
    exact ⟨[c0 :: r], rfl, by simp⟩

/-- Witness for `C9_eval_idempotent_on_plain_result` on `text = "a"`. -/
theorem C9_eval_idempotent_on_plain_result_witness :
    (evalString 2 (mcCtx []) .noNs ['a']).bind (evalString 2 (mcCtx []) .noNs) =
      evalString 2 (mcCtx []) .noNs ['a'] :=
  C9_eval_idempotent_on_plain_result 2 (mcCtx []) .noNs ['a'] ['a'] rfl
    (by decide) rfl (by decide)

/-- Witness for `C8_load_unit_contract` at concrete inputs: part (1) on
a one-entry registry, part (3) on an empty registry with a concrete
search function. -/
theorem C8_load_unit_contract_witness :
    (loadUnit ⟨fun _ => none, id, id, fun _ s => (s, none)⟩
        [(['m'], ⟨['/'], ['m']⟩)] ['m'] =
      ([(['m'], ⟨['/'], ['m']⟩)], .ok ⟨['/'], ['m']⟩)) ∧
    (loadUnit
        ⟨fun i => some (i ++ ".crunit".toList), fun s => '/' :: s, fun _ => ['/'],
          fun _ s => (s, if (alget s ['m']).isSome then none else some (.scriptError 0))⟩
        [] ['m'] =
      ([(['m'], ⟨['/'], ['m']⟩)], .ok ⟨['/'], ['m']⟩)) := by
  constructor
  · exact C8_load_unit_contract.1 _ _ _ _ rfl
  · have h := C8_load_unit_contract.2.2 (fun i => some (i ++ ".crunit".toList))
      (fun s => '/' :: s) (fun _ => ['/']) [] ['m'] (['m'] ++ ".crunit".toList) rfl rfl
      (Or.inr (by decide))
    exact h

/-! ## C2: the semicolon-list round trip -/

/-- C2 (counterexample): `join` escapes semicolons but not backslashes,
so for `L = ["\\", "b"]` the encoded form is `"\;b"`, whose separator
looks escaped; decoding returns `[";b"]`, not `L`. -/
theorem C2_roundtrip_counterexample :
    split (join [['\\'], ['b']]) = [[';', 'b']] ∧
    ([[';', 'b']] : List Str) ≠ ([['\\'], ['b']] : List Str).filter (· ≠ []) := by
  refine ⟨by decide, by decide⟩

theorem escSemi_eq_nil (x : Str) : escSemi x = [] ↔ x = [] := by
  cases x with
  | nil => simp [escSemi]
  | cons c r =>
    unfold escSemi
    by_cases hc : c = ';' <;> simp [hc]

theorem escSemi_head_ne_semi (r : Str) (d : Char) (t : Str)
    (h : escSemi r = d :: t) : d ≠ ';' := by
  cases r with
  | nil => cases h
  | cons c r' =>
    unfold escSemi at h
    by_cases hc : c = ';'
    · rw [if_pos hc] at h
      injection h with h1 _
      rw [← h1]
      decide
    · rw [if_neg hc] at h
      injection h with h1 _
      rw [← h1]
      exact hc

theorem replEsc_escSemi (x : Str) : replEsc (escSemi x) = x := by
  induction x with
  | nil => rfl
  | cons c r ih =>
    by_cases hc : c = ';'
    · subst hc
      rw [show escSemi (';' :: r) = '\\' :: ';' :: escSemi r from by simp [escSemi]]
      rw [show replEsc ('\\' :: ';' :: escSemi r) = ';' :: replEsc (escSemi r) from by
        simp [replEsc]]
      rw [ih]
    · rw [show escSemi (c :: r) = c :: escSemi r from by simp [escSemi, hc]]
      cases he : escSemi r with
      | nil =>
        have hr : r = [] := (escSemi_eq_nil r).mp he
        subst hr
        rfl
      | cons d t =>
        have hd : ¬(c = '\\' ∧ d = ';') := fun hcd =>
          escSemi_head_ne_semi r d t he hcd.2
        rw [show replEsc (c :: d :: t) = if c = '\\' ∧ d = ';' then ';' :: replEsc t
            else c :: replEsc (d :: t) from by simp [replEsc]]
        rw [if_neg hd, ← he, ih]

theorem singleton_isPrefixOf_cons (a c : Char) (r : Str) :
    ([a].isPrefixOf (c :: r)) = true ↔ a = c := by
  simp [List.isPrefixOf]

theorem firstMatch_zero_iff (sub l : Str) :
    firstMatch sub l = some 0 ↔ sub.isPrefixOf l := by
  cases l with
  | nil =>
    unfold firstMatch
    cases h : sub.isPrefixOf ([] : Str) <;> simp [h]
  | cons c r =>
    unfold firstMatch
    cases h : sub.isPrefixOf (c :: r) <;> simp [h]

theorem firstMatch_semi_spec (l : Str) : ∀ k, firstMatch [';'] l = some k →
    l[k]? = some ';' ∧ ∀ m, m < k → l[m]? ≠ some ';' := by
  induction l with
  | nil =>
    intro k h
    unfold firstMatch at h
    simp [List.isPrefixOf] at h
  | cons c r ih =>
    intro k h
    unfold firstMatch at h
    by_cases hp : ([';'].isPrefixOf (c :: r)) = true
    · rw [if_pos hp] at h
      injection h with h'
      subst h'
      have hc : c = ';' := ((singleton_isPrefixOf_cons ..).mp hp).symm
      exact ⟨by simp [hc], fun m hm => absurd hm (by omega)⟩
    · rw [if_neg hp] at h
      obtain ⟨k', hk', rfl⟩ := Option.map_eq_some'.mp h
      obtain ⟨h1, h2⟩ := ih k' hk'
      refine ⟨by simpa using h1, ?_⟩
      intro m hm
      cases m with
      | zero =>
        have hc : ¬c = ';' := fun hcc =>
          hp ((singleton_isPrefixOf_cons ..).mpr hcc.symm)
        simpa using fun hcc => hc hcc
      | succ m' =>
        have := h2 m' (by omega)
        simpa using this

theorem firstMatch_semi_none : ∀ l : Str, firstMatch [';'] l = none →
    ∀ m : Nat, l[m]? ≠ some ';' := by
  intro l
  induction l with
  | nil => intro _ m; simp
  | cons c r ih =>
    intro h m
    unfold firstMatch at h
    by_cases hp : ([';'].isPrefixOf (c :: r)) = true
    · rw [if_pos hp] at h
      cases h
    · rw [if_neg hp] at h
      have hr : firstMatch [';'] r = none := by
        cases hfm : firstMatch [';'] r with
        | none => rfl
        | some k => rw [hfm] at h; simp at h
      cases m with
      | zero =>
        have hc : ¬c = ';' := fun hcc =>
          hp ((singleton_isPrefixOf_cons ..).mpr hcc.symm)
        simpa using fun hcc => hc hcc
      | succ m' => simpa using ih hr m'

theorem firstMatch_semi_exists (l : Str) : ∀ J : Nat, l[J]? = some ';' →
    ∃ k, firstMatch [';'] l = some k ∧ k ≤ J := by
  induction l with
  | nil => intro J h; simp at h
  | cons c r ih =>
    intro J h
    by_cases hp : ([';'].isPrefixOf (c :: r)) = true
    · exact ⟨0, by unfold firstMatch; rw [if_pos hp], by omega⟩
    · cases J with
      | zero =>
        have hc : c = ';' := by simpa using h
        exact absurd ((singleton_isPrefixOf_cons ..).mpr hc.symm) hp
      | succ J' =>
        obtain ⟨k, hk, hle⟩ := ih J' (by simpa using h)
        refine ⟨k + 1, ?_, by omega⟩
        unfold firstMatch
        rw [if_neg hp, hk]
        rfl

theorem pyFind_semi_spec (text : Str) (i j : Nat)
    (h : pyFind text [';'] i = some j) :
    i ≤ j ∧ text[j]? = some ';' ∧
      ∀ m, i ≤ m → m < j → text[m]? ≠ some ';' := by
  unfold pyFind at h
  obtain ⟨k, hk, hkeq⟩ := Option.map_eq_some'.mp h
  obtain ⟨h1, h2⟩ := firstMatch_semi_spec _ k hk
  rw [List.getElem?_drop] at h1
  subst hkeq
  refine ⟨by omega, by rw [show k + i = i + k from by omega]; exact h1, ?_⟩
  intro m him hmj
  have := h2 (m - i) (by omega)
  rw [List.getElem?_drop, show i + (m - i) = m from by omega] at this
  exact this

theorem pyFind_semi_exists (text : Str) (i J : Nat) (hiJ : i ≤ J)
    (hJ : text[J]? = some ';') :
    ∃ j, pyFind text [';'] i = some j ∧ i ≤ j ∧ j ≤ J ∧
      text[j]? = some ';' := by
  have hdrop : (text.drop i)[J - i]? = some ';' := by
    rw [List.getElem?_drop, show i + (J - i) = J from by omega]
    exact hJ
  obtain ⟨k, hk, hle⟩ := firstMatch_semi_exists (text.drop i) (J - i) hdrop
  refine ⟨k + i, ?_, by omega, by omega, ?_⟩
  · unfold pyFind
    rw [hk]
    rfl
  · obtain ⟨h1, -⟩ := firstMatch_semi_spec _ k hk
    rw [List.getElem?_drop, show i + k = k + i from by omega] at h1
    exact h1

theorem pair_isPrefixOf_iff (l : Str) :
    (['\\', ';'].isPrefixOf l) = true ↔
      l[0]? = some '\\' ∧ l[1]? = some ';' := by
  cases l with
  | nil => simp [List.isPrefixOf]
  | cons a r =>
    cases r with
    | nil => simp [List.isPrefixOf]
    | cons b r' =>
      show (('\\' == a) && ((';' == b) && List.isPrefixOf ([] : Str) r')) = true ↔ _
      simp only [show List.isPrefixOf ([] : Str) r' = true by cases r' <;> rfl, Bool.and_true,
        Bool.and_eq_true, beq_iff_eq, List.getElem?_cons_zero, List.getElem?_cons_succ,
        Option.some.injEq]
      constructor
      · rintro ⟨rfl, rfl⟩
        exact ⟨rfl, rfl⟩
      · rintro ⟨rfl, rfl⟩
        exact ⟨rfl, rfl⟩

theorem pyFind_escape_check (text : Str) (j : Nat) (hj : 0 < j) :
    pyFind text ['\\', ';'] (j - 1) = some (j - 1) ↔
      text[j - 1]? = some '\\' ∧ text[j]? = some ';' := by
  constructor
  · intro h
    unfold pyFind at h
    obtain ⟨k, hk, hkeq⟩ := Option.map_eq_some'.mp h
    have hk0 : k = 0 := by omega
    subst hk0
    have hp := (firstMatch_zero_iff _ _).mp hk
    obtain ⟨h1, h2⟩ := (pair_isPrefixOf_iff _).mp hp
    rw [List.getElem?_drop, Nat.add_zero] at h1
    rw [List.getElem?_drop, show j - 1 + 1 = j from by omega] at h2
    exact ⟨h1, h2⟩
  · rintro ⟨h1, h2⟩
    have hp : (['\\', ';'].isPrefixOf (text.drop (j - 1))) = true := by
      rw [pair_isPrefixOf_iff]
      refine ⟨?_, ?_⟩
      · rw [List.getElem?_drop, Nat.add_zero]
        exact h1
      · rw [List.getElem?_drop, show j - 1 + 1 = j from by omega]
        exact h2
    unfold pyFind
    rw [(firstMatch_zero_iff _ _).mpr hp]
    simp

theorem skipEsc_noneArg (f : Nat) (text : Str) : skipEsc f text none = none := by
  cases f <;> rfl

theorem skipEsc_reaches (text : Str) (J : Nat)
    (hJsep : text[J]? = some ';')
    (hJun : J = 0 ∨ text[J - 1]? ≠ some '\\')
    (hall : ∀ m, m < J → text[m]? = some ';' →
      0 < m ∧ text[m - 1]? = some '\\') :
    ∀ f j, j ≤ J → text[j]? = some ';' → J + 1 - j ≤ f →
      skipEsc f text (some j) = some J := by
  intro f
  induction f with
  | zero =>
    intro j hjJ _ hf
    exact absurd hf (by omega)
  | succ f ih =>
    intro j hjJ hj hf
    unfold skipEsc
    by_cases hjeq : j = J
    · subst hjeq
      have hcond : ¬(0 < j ∧ pyFind text ['\\', ';'] (j - 1) = some (j - 1)) := by
        rintro ⟨hj0, hchk⟩
        obtain ⟨h1, -⟩ := (pyFind_escape_check text j hj0).mp hchk
        rcases hJun with h0 | hne
        · omega
        · exact hne h1
      rw [if_neg hcond]
    · have hjlt : j < J := by omega
      obtain ⟨hj0, hprev⟩ := hall j hjlt hj
      rw [if_pos ⟨hj0, (pyFind_escape_check text j hj0).mpr ⟨hprev, hj⟩⟩]
      obtain ⟨j2, hfind, hij2, hj2J, hj2sep⟩ :=
        pyFind_semi_exists text (j + 1) J (by omega) hJsep
      rw [hfind]
      exact ih j2 hj2J hj2sep (by omega)

theorem skipEsc_none (text : Str)
    (hall : ∀ m : Nat, text[m]? = some ';' → 0 < m ∧ text[m - 1]? = some '\\') :
    ∀ f j, text[j]? = some ';' → text.length - j ≤ f →
      skipEsc f text (some j) = none := by
  intro f
  induction f with
  | zero =>
    intro j hj hf
    obtain ⟨hlt, -⟩ := List.getElem?_eq_some_iff.mp hj
    exact absurd hf (by omega)
  | succ f ih =>
    intro j hj hf
    obtain ⟨hj0, hprev⟩ := hall j hj
    unfold skipEsc
    rw [if_pos ⟨hj0, (pyFind_escape_check text j hj0).mpr ⟨hprev, hj⟩⟩]
    cases hfind : pyFind text [';'] (j + 1) with
    | none => exact skipEsc_noneArg f text
    | some j2 =>
      obtain ⟨hle, hj2sep, -⟩ := pyFind_semi_spec text (j + 1) j2 hfind
      obtain ⟨hlt2, -⟩ := List.getElem?_eq_some_iff.mp hj2sep
      exact ih j2 hj2sep (by omega)

theorem escSemi_semi_escaped (x : Str) : ∀ m : Nat, (escSemi x)[m]? = some ';' →
    0 < m ∧ (escSemi x)[m - 1]? = some '\\' := by
  induction x with
  | nil => intro m h; simp [escSemi] at h
  | cons c r ih =>
    intro m h
    by_cases hc : c = ';'
    · subst hc
      rw [show escSemi (';' :: r) = '\\' :: ';' :: escSemi r from by
        simp [escSemi]] at h ⊢
      match m, h with
      | 1, _ => exact ⟨by omega, by simp⟩
      | (m' + 2), h =>
        have h' : (escSemi r)[m']? = some ';' := by simpa using h
        obtain ⟨hm0, hprev⟩ := ih m' h'
        refine ⟨by omega, ?_⟩
        match m', hm0 with
        | (m'' + 1), _ =>
          have heq : m'' + 1 + 2 - 1 = m'' + 2 := by omega
          rw [heq]
          simpa using hprev
    · rw [show escSemi (c :: r) = c :: escSemi r from by simp [escSemi, hc]] at h ⊢
      match m, h with
      | 0, h =>
        have : c = ';' := by simpa using h
        exact absurd this hc
      | (m' + 1), h =>
        have h' : (escSemi r)[m']? = some ';' := by simpa using h
        obtain ⟨hm0, hprev⟩ := ih m' h'
        refine ⟨by omega, ?_⟩
        match m', hm0 with
        | (m'' + 1), _ =>
          have heq : m'' + 1 + 1 - 1 = m'' + 1 := by omega
          rw [heq]
          simpa using hprev

theorem escSemi_getLast? (x : Str) : (escSemi x).getLast? = x.getLast? := by
  induction x with
  | nil => rfl
  | cons c r ih =>
    by_cases hc : c = ';'
    · subst hc
      rw [show escSemi (';' :: r) = '\\' :: ';' :: escSemi r from by simp [escSemi]]
      cases he : escSemi r with
      | nil =>
        have hr : r = [] := (escSemi_eq_nil r).mp he
        subst hr
        rfl
      | cons d t =>
        have hr : r ≠ [] := fun hh => by
          rw [hh] at he
          cases he
        rw [List.getLast?_cons_cons, List.getLast?_cons_cons, ← he, ih]
        cases r with
        | nil => exact absurd rfl hr
        | cons d' t' => rw [List.getLast?_cons_cons]
    · rw [show escSemi (c :: r) = c :: escSemi r from by simp [escSemi, hc]]
      cases he : escSemi r with
      | nil =>
        have hr : r = [] := (escSemi_eq_nil r).mp he
        subst hr
        rfl
      | cons d t =>
        have hr : r ≠ [] := fun hh => by
          rw [hh] at he
          cases he
        rw [List.getLast?_cons_cons, ← he, ih]
        cases r with
        | nil => exact absurd rfl hr
        | cons d' t' => rw [List.getLast?_cons_cons]

theorem findSep_boundary (x t : Str) (hx : x.getLast? ≠ some '\\') :
    findSep (escSemi x ++ ';' :: t) = some (escSemi x).length := by
  have hJ : (escSemi x ++ ';' :: t)[(escSemi x).length]? = some ';' := by
    rw [List.getElem?_append_right (Nat.le_refl _)]
    simp
  have hJun : (escSemi x).length = 0 ∨
      (escSemi x ++ ';' :: t)[(escSemi x).length - 1]? ≠ some '\\' := by
    by_cases hnil : escSemi x = []
    · left
      rw [hnil]
      rfl
    · right
      have hlen : 0 < (escSemi x).length := List.length_pos.mpr hnil
      rw [List.getElem?_append_left (by omega), ← List.getLast?_eq_getElem?,
        escSemi_getLast?]
      exact hx
  have hall : ∀ m, m < (escSemi x).length →
      (escSemi x ++ ';' :: t)[m]? = some ';' →
      0 < m ∧ (escSemi x ++ ';' :: t)[m - 1]? = some '\\' := by
    intro m hm hsemi
    rw [List.getElem?_append_left hm] at hsemi
    obtain ⟨h0, hprev⟩ := escSemi_semi_escaped x m hsemi
    refine ⟨h0, ?_⟩
    rw [List.getElem?_append_left (by omega)]
    exact hprev
  unfold findSep
  obtain ⟨j0, hfind, -, hj0J, hj0sep⟩ :=
    pyFind_semi_exists (escSemi x ++ ';' :: t) 0 (escSemi x).length
      (by omega) hJ
  rw [hfind]
  have hlenle : (escSemi x).length + 1 - j0 ≤
      (escSemi x ++ ';' :: t).length + 1 := by
    simp [List.length_append]
    omega
  exact skipEsc_reaches (escSemi x ++ ';' :: t) (escSemi x).length hJ hJun hall
    ((escSemi x ++ ';' :: t).length + 1) j0 hj0J hj0sep hlenle

theorem findSep_escSemi_none (x : Str) : findSep (escSemi x) = none := by
  unfold findSep
  cases hfind : pyFind (escSemi x) [';'] 0 with
  | none => exact skipEsc_noneArg _ _
  | some j =>
    obtain ⟨-, hjsep, -⟩ := pyFind_semi_spec _ _ _ hfind
    exact skipEsc_none (escSemi x) (escSemi_semi_escaped x) _ j hjsep (by omega)

theorem splitF_step (x t : Str) (hx : x.getLast? ≠ some '\\') (hxne : x ≠ []) :
    ∀ f, (escSemi x ++ ';' :: t).length ≤ f →
      splitF (f + 1) (escSemi x ++ ';' :: t) = x :: splitF f t := by
  intro f hf
  have hne : escSemi x ++ ';' :: t ≠ [] := by simp
  have hene : escSemi x ≠ [] := fun hh => hxne ((escSemi_eq_nil x).mp hh)
  have htake : (escSemi x ++ ';' :: t).take (escSemi x).length = escSemi x :=
    List.take_left ..
  have hdrop : (escSemi x ++ ';' :: t).drop ((escSemi x).length + 1) = t := by
    rw [show escSemi x ++ ';' :: t = (escSemi x ++ [';']) ++ t from by simp,
      show (escSemi x).length + 1 = (escSemi x ++ [';']).length from by simp]
    exact List.drop_left ..
  conv_lhs => rw [splitF]
  rw [if_neg hne, findSep_boundary x t hx]
  simp only [htake, hdrop, if_neg hene, replEsc_escSemi, List.singleton_append]

theorem splitF_single (x : Str) (hxne : x ≠ []) :
    ∀ f, (escSemi x).length < f → splitF f (escSemi x) = [x] := by
  intro f hf
  match f, hf with
  | (f' + 1), _ =>
    have hene : escSemi x ≠ [] := fun hh => hxne ((escSemi_eq_nil x).mp hh)
    unfold splitF
    rw [if_neg hene, findSep_escSemi_none, replEsc_escSemi]

theorem joinParts_roundtrip (M : List Str)
    (hM : ∀ y ∈ M, y ≠ [] ∧ y.getLast? ≠ some '\\') :
    ∀ f, (joinParts (M.map escSemi)).length < f →
      splitF f (joinParts (M.map escSemi)) = M := by
  induction M with
  | nil =>
    intro f hf
    match f, hf with
    | (f' + 1), _ => rfl
  | cons x M' ih =>
    intro f hf
    obtain ⟨hxne, hxl⟩ := hM x (List.mem_cons_self ..)
    cases hM' : M' with
    | nil =>
      subst hM'
      exact splitF_single x hxne f (by simpa using hf)
    | cons y M'' =>
      subst hM'
      have hjp : joinParts ((x :: y :: M'').map escSemi) =
          escSemi x ++ ';' :: joinParts ((y :: M'').map escSemi) := rfl
      rw [hjp] at hf ⊢
      match f, hf with
      | (f' + 1), hf =>
        have hlen : (escSemi x ++ ';' :: joinParts ((y :: M'').map escSemi)).length
            ≤ f' := by
          simp [List.length_append] at hf ⊢
          omega
        rw [splitF_step x _ hxl hxne f' hlen]
        rw [ih (fun z hz => hM z (List.mem_cons_of_mem _ hz)) f'
          (by simp [List.length_append] at hlen ⊢; omega)]

/-- C2 (amended): for every list `L` of strings in which no item ends
with a backslash, decoding the semicolon-list encoding
(`creator.utils.split` after `creator.utils.join`) yields `L` with the
empty items dropped; in particular a literal `;` inside an item survives
the round trip via the `\;` escape. -/
theorem C2_roundtrip_no_trailing_backslash (L : List Str)
    (h : ∀ x ∈ L, x.getLast? ≠ some '\\') :
    split (join L) = L.filter (· ≠ []) := by
  exact joinParts_roundtrip (L.filter (· ≠ []))
    (fun y hy => ⟨by simpa using List.of_mem_filter hy,
      h y (List.mem_of_mem_filter hy)⟩)
    ((joinParts ((L.filter (· ≠ [])).map escSemi)).length + 1)
    (Nat.lt_succ_self _)

/-- Witness for `C2_roundtrip_no_trailing_backslash` on
`L = ["a\;b", "", "c"]` (an item with an embedded `\;`, and an empty
item that is dropped). -/
theorem C2_roundtrip_no_trailing_backslash_witness :
    split (join [['a', '\\', ';', 'b'], [], ['c']]) =
      ([['a', '\\', ';', 'b'], [], ['c']] : List Str).filter (· ≠ []) :=
  C2_roundtrip_no_trailing_backslash [['a', '\\', ';', 'b'], [], ['c']]
    (by decide)

end Creator
